import Mathlib

set_option maxRecDepth 40000

/-!
Verification of the CashFlow probabilistic scheduling and balance-accumulation
engine (modules `cashflow/date_time.py`, `cashflow/probability.py`,
`cashflow/schedule.py`, `cashflow/cash_flow.py`, and the legacy
`cashflow/core.py`), as a shallow embedding in Lean 4.

Conventions of the embedding:
* Python `float` is modelled by `ℚ` (exact arithmetic; every numeric literal
  appearing in the verified scenarios is exactly representable).
* `datetime.date` is modelled by a `Date` structure of numerals ordered
  lexicographically; `datetime.date.min`/`date.max` are `Date.minDate` /
  `Date.maxDate`.
* Functions that can raise are modelled with `Except`/`Option`; functions whose
  raise branches are unreachable for the inputs the engine feeds them are
  modelled total, with the raise condition noted in a comment.
* Python iterators/generators are modelled by eagerly-produced `List`s; the
  bounded `while` loops of the monthly schedule walk are modelled by structural
  recursion on an explicit fuel that dominates the loop's month span.
-/

/-- Default tolerance when deciding if a probability is "certain"
(`probability.DEFAULT_CERTAINTY_TOLERANCE = 1e-6`). -/
def DEFAULT_CERTAINTY_TOLERANCE : ℚ := 1 / 1000000

/-- Clamp used by `DiscreteDistribution._from_probabilities`
(`probability.DiscreteDistribution._CUMULATIVE_PROBABILITY_CLAMP = 1e-9`). -/
def CUMULATIVE_PROBABILITY_CLAMP : ℚ := 1 / 1000000000

/-- A calendar date, as in Python `datetime.date` (year, month, day numerals).
Dates compare lexicographically on (year, month, day). -/
structure Date where
  year : ℕ
  month : ℕ
  day : ℕ
deriving DecidableEq

/-- Lexicographic key used to order dates. -/
def Date.toLexKey (d : Date) : Lex (ℕ × Lex (ℕ × ℕ)) := toLex (d.year, toLex (d.month, d.day))

instance : LinearOrder Date :=
  LinearOrder.lift' Date.toLexKey (by
    intro a b h
    cases a; cases b
    simp [Date.toLexKey, toLex, Prod.ext_iff] at h
    simp_all)

/-- Python `datetime.date.min` = 0001-01-01. -/
def Date.minDate : Date := ⟨1, 1, 1⟩

/-- Python `datetime.date.max` = 9999-12-31. -/
def Date.maxDate : Date := ⟨9999, 12, 31⟩

/-- Gregorian leap-year rule (as implemented by Python's `calendar`/`datetime`). -/
def isLeapYear (y : ℕ) : Bool := y % 4 = 0 ∧ (y % 100 ≠ 0 ∨ y % 400 = 0)

/-- Number of days of month `m` in year `y` (Gregorian calendar). -/
def daysInMonth (y m : ℕ) : ℕ :=
  if m = 1 ∨ m = 3 ∨ m = 5 ∨ m = 7 ∨ m = 8 ∨ m = 10 ∨ m = 12 then 31
  else if m = 4 ∨ m = 6 ∨ m = 9 ∨ m = 11 then 30
  else if isLeapYear y then 29 else 28

/-- A `Date` representable by Python's `datetime.date`. -/
def Date.Valid (d : Date) : Prop :=
  1 ≤ d.year ∧ d.year ≤ 9999 ∧ 1 ≤ d.month ∧ d.month ≤ 12 ∧ 1 ≤ d.day ∧ d.day ≤ daysInMonth d.year d.month

/-- The day after `d`: Python `d + timedelta(days=1)`. (Python raises `OverflowError`
past `date.max`; the engine never steps past it in the verified scenarios.) -/
def Date.succ (d : Date) : Date :=
  if d.day < daysInMonth d.year d.month then ⟨d.year, d.month, d.day + 1⟩
  else if d.month < 12 then ⟨d.year, d.month + 1, 1⟩
  else ⟨d.year + 1, 1, 1⟩

/-- The day before `d`: Python `d + timedelta(days=-1)`. -/
def Date.pred (d : Date) : Date :=
  if 1 < d.day then ⟨d.year, d.month, d.day - 1⟩
  else if 1 < d.month then ⟨d.year, d.month - 1, daysInMonth d.year (d.month - 1)⟩
  else ⟨d.year - 1, 12, 31⟩

/-- A calendar month (`date_time.Month`): a (year, month-numeral) pair,
ordered lexicographically (Python `@dataclass(order=True)` tuple order). -/
structure Month where
  year : ℕ
  month : ℕ
deriving DecidableEq

/-- Lexicographic key used to order months. -/
def Month.toLexKey (m : Month) : Lex (ℕ × ℕ) := toLex (m.year, m.month)

instance : LinearOrder Month :=
  LinearOrder.lift' Month.toLexKey (by
    intro a b h
    cases a; cases b
    simp [Month.toLexKey, toLex, Prod.ext_iff] at h
    simp_all)

/-- `Month.of`: the month a date is within. -/
def Month.of (d : Date) : Month := ⟨d.year, d.month⟩

/-- `Month.day`: the date of day-of-month `day` within this month. (Python
`date(year, month, day)` raises `ValueError` for an invalid day; the schedule
code only calls this on days validated by `has_day`.) -/
def Month.day (m : Month) (day : ℕ) : Date := ⟨m.year, m.month, day⟩

/-- `Month.has_day`: whether `day` forms a valid date within this month. -/
def Month.has_day (m : Month) (day : ℕ) : Bool := 1 ≤ day ∧ day ≤ daysInMonth m.year m.month

/-- `Month.__sub__`: number of months between two months. -/
def Month.sub (a b : Month) : ℤ :=
  ((a.year : ℤ) - b.year) * 12 + (a.month : ℤ) - b.month

/-- `Month.__add__`: adds a number of months (Python computes
`self.day(1) + relativedelta(months=k)`, i.e. pure month-index arithmetic since
the anchor is day 1). -/
def Month.add (m : Month) (k : ℤ) : Month :=
  let idx : ℤ := (m.year : ℤ) * 12 + ((m.month : ℤ) - 1) + k
  ⟨(idx / 12).toNat, (idx % 12).toNat + 1⟩

/-- A contiguous date interval (`date_time.DateRange`), stored half-open as
`[inclusive_lower_bound, exclusive_upper_bound)`. The Python constructor
rejects `lower > upper`; all ranges built below satisfy the invariant. -/
structure DateRange where
  inclusive_lower_bound : Date
  exclusive_upper_bound : Date
deriving DecidableEq

/-- `DateRange.half_open` factory. -/
def DateRange.half_open (lb ub : Date) : DateRange := ⟨lb, ub⟩

/-- `DateRange.inclusive` factory: `[lb, ub]` as `[lb, ub + 1 day)`. -/
def DateRange.inclusive (lb ub : Date) : DateRange := ⟨lb, ub.succ⟩

/-- `DateRange.all` factory: all representable dates. -/
def DateRange.all : DateRange := ⟨Date.minDate, Date.maxDate⟩

/-- `DateRange.beginning_at` factory: `[lb, date.max)`. -/
def DateRange.beginning_at (lb : Date) : DateRange := ⟨lb, Date.maxDate⟩

/-- `DateRange.empty` factory (default anchor 1900-01-01). -/
def DateRange.emptyRange : DateRange := ⟨⟨1900, 1, 1⟩, ⟨1900, 1, 1⟩⟩

/-- `DateRange.has_proper_lower_bound`: lower bound is not `date.min`. -/
def DateRange.has_proper_lower_bound (r : DateRange) : Bool :=
  r.inclusive_lower_bound ≠ Date.minDate

/-- `DateRange.has_proper_upper_bound`: upper bound is not `date.max`. -/
def DateRange.has_proper_upper_bound (r : DateRange) : Bool :=
  r.exclusive_upper_bound ≠ Date.maxDate

/-- `DateRange.is_empty`: the range contains no dates. -/
def DateRange.is_empty (r : DateRange) : Bool :=
  r.inclusive_lower_bound = r.exclusive_upper_bound

/-- `DateRange.first_day` (Python raises for an empty or lower-unbounded range;
callers below guard with `is_empty`). -/
def DateRange.first_day (r : DateRange) : Date := r.inclusive_lower_bound

/-- `DateRange.inclusive_upper_bound`: the day before the exclusive upper bound. -/
def DateRange.inclusive_upper_bound (r : DateRange) : Date := r.exclusive_upper_bound.pred

/-- `DateRange.__contains__`. -/
def DateRange.containsDate (r : DateRange) (d : Date) : Bool :=
  r.inclusive_lower_bound ≤ d ∧ d < r.exclusive_upper_bound

/-- `DateRange.__and__`: intersection of two ranges (lower bound clamped so it
does not exceed the upper bound). -/
def DateRange.inter (a b : DateRange) : DateRange :=
  let lower := max a.inclusive_lower_bound b.inclusive_lower_bound
  let upper := min a.exclusive_upper_bound b.exclusive_upper_bound
  ⟨min lower upper, upper⟩

example : Date.succ ⟨2023, 8, 6⟩ = ⟨2023, 8, 7⟩ := by decide
example : Date.pred ⟨2023, 3, 1⟩ = ⟨2023, 2, 28⟩ := by decide
example : daysInMonth 2023 2 = 28 := by decide
example : daysInMonth 2024 2 = 29 := by decide
example : Month.add ⟨2023, 12⟩ 1 = ⟨2024, 1⟩ := by decide
example : Month.sub ⟨2023, 8⟩ ⟨2023, 6⟩ = 2 := by decide

/-- One possible outcome of a discrete distribution
(`probability.DiscreteOutcome`): a value with its occurrence probability and
the cumulative probability of all outcomes up to and including it. -/
structure DiscreteOutcome (α : Type) where
  value : α
  probability : ℚ
  cumulative_probability : ℚ
deriving DecidableEq

/-- The invariant enforced by `DiscreteOutcome.__post_init__`:
`0 < probability <= 1` and `probability <= cumulative_probability <= 1`. -/
def DiscreteOutcome.Valid {α : Type} (o : DiscreteOutcome α) : Prop :=
  0 < o.probability ∧ o.probability ≤ 1 ∧
    o.probability ≤ o.cumulative_probability ∧ o.cumulative_probability ≤ 1

/-- A discrete probability distribution (`probability.DiscreteDistribution`):
outcomes sorted ascending by value. May describe a partial distribution
(probabilities summing to less than 1). -/
structure DiscreteDistribution (α : Type) where
  outcomes : List (DiscreteOutcome α)
deriving DecidableEq

/-- Consistency of adjacent cumulative probabilities checked by
`DiscreteDistribution.__init__`. -/
def cumulConsistent {α : Type} (o o' : DiscreteOutcome α) : Prop :=
  o.cumulative_probability + o'.probability ≤ o'.cumulative_probability

/-- The invariant established by `DiscreteDistribution.__init__` on
successfully constructed distributions (together with the per-outcome
invariant of `DiscreteOutcome.__post_init__`): strictly increasing values,
consistent cumulative probabilities, total probability at most 1. -/
def DiscreteDistribution.Valid {α : Type} [LinearOrder α] (d : DiscreteDistribution α) : Prop :=
  (∀ o ∈ d.outcomes, o.Valid) ∧
    List.Chain' (fun o o' => o.value < o'.value) d.outcomes ∧
    List.Chain' cumulConsistent d.outcomes ∧
    (d.outcomes.map (fun o => o.probability)).sum ≤ 1

/-- `probability.effectively_certain`: raises on a negative tolerance,
otherwise checks `probability >= 1 - tolerance`. -/
def effectively_certain (p : ℚ) (tolerance : ℚ) : Except String Bool :=
  if tolerance < 0 then .error "tolerance must be >= 0"
  else .ok (decide (1 - tolerance ≤ p))

/-- Pure variant of `effectively_certain` used where the engine passes the
(nonnegative) module tolerance, making the raise branch unreachable. -/
def effectively_certainB (p : ℚ) (tolerance : ℚ) : Bool := 1 - tolerance ≤ p

/-- Modelled from the spec: `clamp_certain` is referenced by
`cash_flow.py` but absent from this snapshot's `probability.py`. Per the spec,
a probability within the certainty tolerance of 1 is clamped to exactly 1,
and the clamp is idempotent. -/
def clamp_certain (p : ℚ) (tolerance : ℚ) : ℚ :=
  if 1 - tolerance ≤ p then 1 else p

/-- `DiscreteDistribution.iterate`: outcomes with value in `[lo, hi)`, ascending. -/
def DiscreteDistribution.iterate {α : Type} [LinearOrder α] (d : DiscreteDistribution α)
    (lo hi : α) : List (DiscreteOutcome α) :=
  d.outcomes.filter (fun o => lo ≤ o.value ∧ o.value < hi)

/-- `DiscreteDistribution.probability_in`: total probability of outcomes in `[lo, hi)`. -/
def DiscreteDistribution.probability_in {α : Type} [LinearOrder α] (d : DiscreteDistribution α)
    (lo hi : α) : ℚ :=
  ((d.iterate lo hi).map (fun o => o.probability)).sum

/-- `DiscreteDistribution.possible_in`: whether any outcome lies in `[lo, hi)`. -/
def DiscreteDistribution.possible_in {α : Type} [LinearOrder α] (d : DiscreteDistribution α)
    (lo hi : α) : Bool :=
  !(d.iterate lo hi).isEmpty

/-- `DiscreteDistribution.certain_in`: the distribution is guaranteed to take a
value in `[lo, hi)`. Python short-circuits, so `effectively_certain` (and its
negative-tolerance raise) is reached only when the three structural conditions
hold. -/
def DiscreteDistribution.certain_in {α : Type} [LinearOrder α] (d : DiscreteDistribution α)
    (lo hi : α) (tolerance : ℚ) : Except String Bool :=
  match d.outcomes with
  | [] => .ok false
  | o :: rest =>
    let lastO := (o :: rest).getLast (List.cons_ne_nil o rest)
    if lo ≤ o.value ∧ lastO.value < hi then
      effectively_certain lastO.cumulative_probability tolerance
    else .ok false

/-- `DiscreteDistribution.has_possible_outcomes`. -/
def DiscreteDistribution.has_possible_outcomes {α : Type} (d : DiscreteDistribution α) : Bool :=
  !d.outcomes.isEmpty

/-- `DiscreteDistribution.lower_bound_inclusive`: the outcome with the lowest
value `>= v` (`bisect_left` on the sorted outcome list = first match). -/
def DiscreteDistribution.lower_bound_inclusive {α : Type} [LinearOrder α]
    (d : DiscreteDistribution α) (v : α) : Option (DiscreteOutcome α) :=
  d.outcomes.find? (fun o => v ≤ o.value)

/-- `DiscreteDistribution.upper_bound_inclusive`: the outcome with the highest
value `<= v` (`bisect_right` on the sorted outcome list = last match). -/
def DiscreteDistribution.upper_bound_inclusive {α : Type} [LinearOrder α]
    (d : DiscreteDistribution α) (v : α) : Option (DiscreteOutcome α) :=
  (d.outcomes.filter (fun o => o.value ≤ v)).getLast?

/-- Modelled from the spec: `cumulative_probability(v)` is called on date
distributions by `cash_flow.generate_balance_updates` but absent from this
snapshot's `probability.py`. Per the spec's glossary it is the probability
that the outcome occurs at a value `<= v`: the recorded cumulative
probability of the last outcome at or before `v`, or 0 when there is none. -/
def DiscreteDistribution.cumulative_probability {α : Type} [LinearOrder α]
    (d : DiscreteDistribution α) (v : α) : ℚ :=
  match d.upper_bound_inclusive v with
  | some o => o.cumulative_probability
  | none => 0

/-- Sorted insertion used to model iteration over Python's
`sorted(value_probabilities.keys())`: inserts a (value, probability) pair into
a value-sorted association list, summing probabilities on collision. -/
def insertProb {α : Type} [LinearOrder α] : List (α × ℚ) → α → ℚ → List (α × ℚ)
  | [], v, p => [(v, p)]
  | (w, q) :: t, v, p =>
    if v = w then (w, q + p) :: t
    else if v < w then (v, p) :: (w, q) :: t
    else (w, q) :: insertProb t v p

/-- Value-sorted, collision-summed form of a list of (value, probability)
pairs, modelling a Python dict of probabilities with its keys sorted. -/
def collectProbs {α : Type} [LinearOrder α] (pairs : List (α × ℚ)) : List (α × ℚ) :=
  pairs.foldl (fun acc vp => insertProb acc vp.1 vp.2) []

/-- Step of the cumulative-probability build in
`DiscreteDistribution._from_probabilities`, including the clamp-down
correction (a clamp value of 0 models passing a falsy flag). The source
raises when a probability is nonpositive or when the sum exceeds 1 beyond the
clamp; the engine only reaches this code with positive probabilities summing
to at most 1, where neither raise fires (exact rationals have no drift). -/
def fromProbsStep {α : Type} (clampDown : ℚ)
    (st : List (DiscreteOutcome α) × ℚ) (vp : α × ℚ) : List (DiscreteOutcome α) × ℚ :=
  let cum := st.2
  let newCum := cum + vp.2
  if clampDown ≠ 0 ∧ 1 < newCum then
    if cum < 1 ∧ newCum - 1 < clampDown then
      let p := if st.1.isEmpty then vp.2 else vp.2 - (newCum - 1)
      (st.1 ++ [⟨vp.1, p, 1⟩], 1)
    else
      (st.1 ++ [⟨vp.1, vp.2, newCum⟩], newCum)
  else
    (st.1 ++ [⟨vp.1, vp.2, newCum⟩], newCum)

/-- `DiscreteDistribution._from_probabilities`: builds the sorted outcome list
with running cumulative probabilities, applying the clamp-down correction per
outcome and the final clamp-up correction on the last outcome. -/
def fromProbs {α : Type} [LinearOrder α] (pairs : List (α × ℚ))
    (clampDown clampUp : ℚ) : List (DiscreteOutcome α) :=
  let outs := ((collectProbs pairs).foldl (fromProbsStep clampDown) ([], 0)).1
  if clampUp ≠ 0 then
    match outs.getLast? with
    | some lastO =>
      let diff := 1 - lastO.cumulative_probability
      if 0 < diff ∧ diff < clampUp then
        outs.dropLast ++ [⟨lastO.value, lastO.probability + diff, 1⟩]
      else outs
    | none => outs
  else outs

/-- `DiscreteDistribution.from_probabilities` (default clamps). -/
def DiscreteDistribution.from_probabilities {α : Type} [LinearOrder α]
    (pairs : List (α × ℚ)) : DiscreteDistribution α :=
  ⟨fromProbs pairs CUMULATIVE_PROBABILITY_CLAMP CUMULATIVE_PROBABILITY_CLAMP⟩

/-- `DiscreteDistribution.from_weights`: probabilities are weights normalised
by their total. -/
def DiscreteDistribution.from_weights {α : Type} [LinearOrder α]
    (pairs : List (α × ℚ)) : DiscreteDistribution α :=
  let total := (pairs.map (fun vp => vp.2)).sum
  DiscreteDistribution.from_probabilities (pairs.map (fun vp => (vp.1, vp.2 / total)))

/-- `DiscreteDistribution.uniformly_in`. -/
def DiscreteDistribution.uniformly_in {α : Type} [LinearOrder α]
    (values : List α) : DiscreteDistribution α :=
  DiscreteDistribution.from_weights (values.map (fun v => (v, 1)))

/-- `DiscreteDistribution.singular`: one value with probability 1. -/
def DiscreteDistribution.singular {α : Type} [LinearOrder α] (v : α) : DiscreteDistribution α :=
  DiscreteDistribution.uniformly_in [v]

/-- `DiscreteDistribution.subset`: keep only outcomes whose value satisfies the
predicate. With `adjust_cumulative = false` the kept outcome records (value,
probability, cumulative probability) are reused unchanged; with `true` the
cumulative probabilities are rebuilt from the kept probabilities with the
clamp corrections disabled (the source passes falsy clamp flags). -/
def DiscreteDistribution.subset {α : Type} [LinearOrder α] (d : DiscreteDistribution α)
    (f : α → Bool) (adjust_cumulative : Bool) : DiscreteDistribution α :=
  let filtered := d.outcomes.filter (fun o => f o.value)
  if adjust_cumulative then
    ⟨fromProbs (filtered.map (fun o => (o.value, o.probability))) 0 0⟩
  else
    ⟨filtered⟩

/-- `DiscreteDistribution.map_values`: remap outcome values, summing the
probabilities of collided values and rebuilding cumulative probabilities via
`from_probabilities` (default clamps). -/
def DiscreteDistribution.map_values {α β : Type} [LinearOrder α] [LinearOrder β]
    (d : DiscreteDistribution α) (f : α → β) : DiscreteDistribution β :=
  DiscreteDistribution.from_probabilities (d.outcomes.map (fun o => (f o.value, o.probability)))

example : (DiscreteDistribution.singular (⟨2023, 6, 6⟩ : Date)).outcomes
    = [⟨⟨2023, 6, 6⟩, 1, 1⟩] := by with_unfolding_all decide
example : (DiscreteDistribution.from_weights [(1, 1), (2, 3), (5, 2)]
    : DiscreteDistribution ℕ).outcomes
    = [⟨1, 1/6, 1/6⟩, ⟨2, 1/2, 2/3⟩, ⟨5, 1/3, 1⟩] := by with_unfolding_all decide

/-- A min/mean/max envelope on the reals (`probability.FloatDistribution`). -/
structure FloatDistribution where
  min : ℚ
  max : ℚ
  mean : ℚ
deriving DecidableEq

/-- The invariant enforced by `FloatDistribution.__post_init__`:
`min <= mean <= max`. Construction succeeds exactly when it holds. -/
def FloatDistribution.Valid (d : FloatDistribution) : Prop :=
  d.min ≤ d.mean ∧ d.mean ≤ d.max

/-- `FloatDistribution.singular`. -/
def FloatDistribution.singular (v : ℚ) : FloatDistribution := ⟨v, v, v⟩

/-- `FloatDistribution.__neg__`. -/
def FloatDistribution.neg (d : FloatDistribution) : FloatDistribution :=
  ⟨-d.max, -d.min, -d.mean⟩

/-- `FloatDistribution.__add__` with another distribution. -/
def FloatDistribution.addDist (a b : FloatDistribution) : FloatDistribution :=
  ⟨a.min + b.min, a.max + b.max, a.mean + b.mean⟩

/-- `FloatDistribution.__add__` with a scalar. -/
def FloatDistribution.addScalar (a : FloatDistribution) (c : ℚ) : FloatDistribution :=
  ⟨a.min + c, a.max + c, a.mean + c⟩

/-- `FloatDistribution.__mul__` by a scalar: a negative multiplier swaps the
min and max components. -/
def FloatDistribution.mulScalar (a : FloatDistribution) (c : ℚ) : FloatDistribution :=
  if 0 ≤ c then ⟨a.min * c, a.max * c, a.mean * c⟩
  else ⟨a.max * c, a.min * c, a.mean * c⟩

/-- Day-of-month distributions (`schedule.DayOfMonthDistribution`), values 1..31. -/
abbrev DayOfMonthDistribution := DiscreteDistribution ℕ

/-- Date distributions (`schedule.DateDistribution`). -/
abbrev DateDistribution := DiscreteDistribution Date

/-- `schedule.SimpleDayOfMonthSchedule`: each month uses the same day-of-month
distributions; days invalid for a given month are removed. -/
structure SimpleDayOfMonthSchedule where
  distributions : List DayOfMonthDistribution

/-- `SimpleDayOfMonthSchedule.iterate`: drops the days invalid for `month`
from each distribution (via `subset` without cumulative adjustment, so the
surviving outcome records are untouched), then skips empty distributions. -/
def SimpleDayOfMonthSchedule.iterate (s : SimpleDayOfMonthSchedule) (month : Month) :
    List DayOfMonthDistribution :=
  (s.distributions.map (fun d => d.subset month.has_day false)).filter
    (fun d => d.has_possible_outcomes)

/-- An entry of a schedule's `exclude` collection: a single date or a range. -/
inductive ExcludeEntry where
  | dateEntry (d : Date)
  | rangeEntry (r : DateRange)

/-- `schedule._is_occurrence_excluded`. -/
def is_occurrence_excluded (occurrence : Date) (excluded : List ExcludeEntry) : Bool :=
  excluded.any (fun e =>
    match e with
    | .dateEntry d => occurrence = d
    | .rangeEntry r => r.containsDate occurrence)

/-- The `day` argument of `schedule.Monthly`: a day-of-month numeral or a
day-of-month schedule (the repository's only `DayOfMonthSchedule` is
`SimpleDayOfMonthSchedule`). -/
inductive MonthlyDay where
  | num (n : ℤ)
  | sched (s : SimpleDayOfMonthSchedule)

/-- `schedule.Monthly`: event occurs on specified days of month every `period`
months, anchored to the validity range's lower bound. -/
structure Monthly where
  day : MonthlyDay
  range : DateRange
  period : ℤ
  exclude : List ExcludeEntry

/-- Whether a `Monthly` `day` argument passes the `isinstance(int)` check of
`Monthly.__post_init__` (non-integer day arguments are not range-checked). -/
def MonthlyDay.argOk : MonthlyDay → Prop
  | .num n => 1 ≤ n ∧ n ≤ 31
  | .sched _ => True

/-- `Monthly.__post_init__` as a checked constructor: `none` models the raise. -/
def Monthly.mk? (day : MonthlyDay) (range : DateRange) (period : ℤ)
    (exclude : List ExcludeEntry) : Option Monthly :=
  if (match day with | .num n => !(1 ≤ n ∧ n ≤ 31 : Bool) | .sched _ => false) then none
  else if period < 1 then none
  else if period ≠ 1 ∧ ¬ range.has_proper_lower_bound then none
  else some ⟨day, range, period, exclude⟩

/-- `Monthly._day_schedule`: a numeral day becomes a singleton
`SimpleDayOfMonthSchedule`. (A negative numeral cannot occur: the constructor
range-checks integer days.) -/
def Monthly.day_schedule (m : Monthly) : SimpleDayOfMonthSchedule :=
  match m.day with
  | .sched s => s
  | .num n => ⟨[DiscreteDistribution.singular n.toNat]⟩

/-- Body of the month walk of `Monthly.iterate` for one month that passes the
period-alignment test: map the surviving day distributions to dates, drop
excluded occurrences (occurrence probabilities of the survivors unchanged,
`subset` without cumulative adjustment), and keep distributions with positive
probability inside the queried range. -/
def Monthly.monthEvents (m : Monthly) (dr : DateRange) (month : Month) :
    List DateDistribution :=
  ((m.day_schedule.iterate month).map (fun day_distribution =>
      (day_distribution.map_values month.day).subset
        (fun d => ¬ is_occurrence_excluded d m.exclude) false)).filter
    (fun dd => 0 < dd.probability_in dr.inclusive_lower_bound dr.exclusive_upper_bound)

/-- The `while month <= last_month` walk of `Monthly.iterate`, by structural
recursion on a fuel that dominates the month span (each pass advances the
month by `period - period_diff >= 1`, so a fuel of one more than the span is
never exhausted). -/
def Monthly.iterateLoop (m : Monthly) (dr : DateRange) (startMonth lastMonth : Month) :
    ℕ → Month → List DateDistribution
  | 0, _ => []
  | fuel + 1, month =>
    if month ≤ lastMonth then
      let period_diff := (Month.sub month startMonth) % m.period
      let rest := Monthly.iterateLoop m dr startMonth lastMonth fuel
        (month.add (m.period - period_diff))
      if period_diff = 0 then m.monthEvents dr month ++ rest else rest
    else []

/-- `Monthly.iterate`: intersect the queried range with the schedule's own
range, then walk the months. (Python's `if date_range:` truthiness calls
`DateRange.__len__`, which also raises for an unbounded range; the verified
scenarios query bounded ranges, where truthiness is non-emptiness.) -/
def Monthly.iterate (m : Monthly) (date_range : DateRange) : List DateDistribution :=
  let dr := date_range.inter m.range
  if dr.is_empty then []
  else
    let startMonth := Month.of m.range.inclusive_lower_bound
    let firstMonth := Month.of dr.first_day
    let lastMonth := Month.of dr.inclusive_upper_bound
    Monthly.iterateLoop m dr startMonth lastMonth
      ((Month.sub lastMonth firstMonth).toNat + 1) firstMonth

/-- The `day` argument of `schedule.Weekly`: a day-of-week numeral or a
day-of-week distribution (the constructor only range-checks the numeral form). -/
inductive WeeklyDay where
  | num (n : ℤ)
  | dist (d : DiscreteDistribution ℕ)

/-- `schedule.Weekly` (constructor-level embedding; the claims exercise only
its `__post_init__` validation, not its week walk). -/
structure Weekly where
  day : WeeklyDay
  range : DateRange
  period : ℤ
  exclude : List ExcludeEntry

/-- Whether a `Weekly` `day` argument passes the `isinstance(int)` check of
`Weekly.__post_init__`. -/
def WeeklyDay.argOk : WeeklyDay → Prop
  | .num n => 0 ≤ n ∧ n ≤ 6
  | .dist _ => True

/-- `Weekly.__post_init__` as a checked constructor: `none` models the raise. -/
def Weekly.mk? (day : WeeklyDay) (range : DateRange) (period : ℤ)
    (exclude : List ExcludeEntry) : Option Weekly :=
  if (match day with | .num n => !(0 ≤ n ∧ n ≤ 6 : Bool) | .dist _ => false) then none
  else if period < 1 then none
  else if period ≠ 1 ∧ ¬ range.has_proper_lower_bound then none
  else some ⟨day, range, period, exclude⟩

/-- The `schedule.EventSchedule` variants exercised by the verified claims
(`Never`, and `Monthly` which drives every balance-update scenario). -/
inductive EventSchedule where
  | never
  | monthly (m : Monthly)

/-- `EventSchedule.iterate` dispatch. -/
def EventSchedule.iterate (s : EventSchedule) (date_range : DateRange) :
    List DateDistribution :=
  match s with
  | .never => []
  | .monthly m => m.iterate date_range

example : Monthly.iterate ⟨.num 6, DateRange.all, 1, []⟩
    (DateRange.inclusive ⟨2023, 6, 6⟩ ⟨2023, 8, 6⟩)
    = [⟨[⟨⟨2023, 6, 6⟩, 1, 1⟩]⟩, ⟨[⟨⟨2023, 7, 6⟩, 1, 1⟩]⟩, ⟨[⟨⟨2023, 8, 6⟩, 1, 1⟩]⟩] := by
  with_unfolding_all decide

example : Monthly.iterate ⟨.num 31, DateRange.all, 1, []⟩
    (DateRange.inclusive ⟨2023, 2, 1⟩ ⟨2023, 3, 31⟩)
    = [⟨[⟨⟨2023, 3, 31⟩, 1, 1⟩]⟩] := by
  with_unfolding_all decide

/-- The kind of a `cash_flow.CashEndpoint` instance in the class hierarchy of
`cash_flow.py`/`frontend.py`: a balance-tracked `Account`, a plain
`IncomeSource`, or a plain `ExpenseSink`. -/
inductive EndpointKind where
  | account
  | incomeSource
  | expenseSink
deriving DecidableEq

/-- `cash_flow.CashEndpoint`: somewhere funds come from or go to. Python
endpoints compare by object identity; the embedding's value equality is
adequate because each verified scenario uses distinct labels. -/
structure CashEndpoint where
  label : String
  kind : EndpointKind
deriving DecidableEq

/-- Whether the endpoint is of the balance-tracked `frontend.Account` kind. -/
def CashEndpoint.isAccountKind (e : CashEndpoint) : Bool := e.kind = EndpointKind.account

/-- `cash_flow.ScheduledCashFlow` (the `tags` payload is irrelevant to the
claims and omitted; `id` stands in for Python object identity). Its
`__post_init__` rejects `amount.min < 0`; every flow below satisfies it. -/
structure ScheduledCashFlow where
  id : ℕ
  label : String
  source : CashEndpoint
  sink : CashEndpoint
  amount : FloatDistribution
  schedule : EventSchedule

/-- `cash_flow.CashBalanceDelta`: a change in an uncertain balance (all
components default to 0 at construction sites). -/
structure CashBalanceDelta where
  min : ℚ := 0
  max : ℚ := 0
  mean : ℚ := 0
deriving DecidableEq

/-- `CashBalanceDelta.__add__`. -/
def CashBalanceDelta.add (a b : CashBalanceDelta) : CashBalanceDelta :=
  ⟨a.min + b.min, a.max + b.max, a.mean + b.mean⟩

/-- Modelled from the spec: `CashBalanceDelta.__radd__` applies a delta to a
`FloatDistribution` balance via `FloatDistribution.from_inexact`, which is
absent from this snapshot's `probability.py`. Per the spec's accumulation
algorithm the result is the component-wise sum
(`min+delta.min`, `max+delta.max`, `mean+delta.mean`). -/
def CashBalanceDelta.radd (d : FloatDistribution) (delta : CashBalanceDelta) : FloatDistribution :=
  ⟨d.min + delta.min, d.max + delta.max, d.mean + delta.mean⟩

/-- `cash_flow.CashBalanceUpdate`: one dated balance adjustment of an endpoint
(`cause` records the originating flow's identity). -/
structure CashBalanceUpdate where
  date : Date
  endpoint : CashEndpoint
  delta : CashBalanceDelta
  cause : ℕ
deriving DecidableEq

/-- `cash_flow.CashBalanceRecord`: one endpoint's accumulated balance as of
the start of `date`. -/
structure CashBalanceRecord where
  date : Date
  amount : FloatDistribution
deriving DecidableEq

/-- Selects the next element of the stable k-way date merge: the head of the
earliest-indexed nonempty list whose head date is minimal, together with the
remaining lists. -/
def selectEarliest : List (List CashBalanceUpdate) →
    Option (CashBalanceUpdate × List (List CashBalanceUpdate))
  | [] => none
  | [] :: rest => (selectEarliest rest).map (fun ur => (ur.1, [] :: ur.2))
  | (u :: us) :: rest =>
    match selectEarliest rest with
    | none => some (u, us :: rest)
    | some (v, rest') =>
      if v.date < u.date then some (v, (u :: us) :: rest')
      else some (u, us :: rest)

/-- Drain loop of the k-way merge, on a fuel dominating the total length. -/
def mergeLoop : ℕ → List (List CashBalanceUpdate) → List CashBalanceUpdate
  | 0, _ => []
  | fuel + 1, lss =>
    match selectEarliest lss with
    | none => []
    | some (u, lss') => u :: mergeLoop fuel lss'

/-- `utility.merge_by_date` (`heapq.merge` keyed by `.date`): stable k-way
merge — on equal dates the earlier input stream yields first. -/
def merge_by_date (lss : List (List CashBalanceUpdate)) : List CashBalanceUpdate :=
  mergeLoop (lss.map List.length).sum lss

/-- Balance updates generated by `cash_flow.generate_balance_updates` for one
schedule-yielded event: the lower-bound impulse at the first possible
occurrence, a mean accrual the day after each possible occurrence in range,
and — when the event is effectively certain to have occurred by the range's
end — the upper-bound correction the day after the last occurrence at or
before the range's inclusive upper bound. (The source `assert`s that the
first and last occurrences exist, which holds for every schedule-yielded
event; the embedding returns no updates on the impossible branch.) -/
def generate_event_updates (cash_flow : ScheduledCashFlow) (date_range : DateRange)
    (certainty_tolerance : ℚ) (event : DateDistribution) : List CashBalanceUpdate :=
  let source := cash_flow.source
  let sink := cash_flow.sink
  let amount := cash_flow.amount
  match event.lower_bound_inclusive date_range.inclusive_lower_bound with
  | none => []
  | some first_occurrence =>
    let lowerUpdates : List CashBalanceUpdate :=
      [⟨first_occurrence.value, source, { min := -amount.max }, cash_flow.id⟩,
       ⟨first_occurrence.value, sink, { max := amount.max }, cash_flow.id⟩]
    let probability_in_range :=
      event.probability_in date_range.inclusive_lower_bound date_range.exclusive_upper_bound
    let meanUpdates : List CashBalanceUpdate :=
      (event.iterate date_range.inclusive_lower_bound date_range.exclusive_upper_bound).flatMap
        (fun occurrence =>
          let following_date := occurrence.value.succ
          let update_amount := amount.mean * clamp_certain occurrence.probability certainty_tolerance
          [⟨following_date, source, { mean := -update_amount }, cash_flow.id⟩,
           ⟨following_date, sink, { mean := update_amount }, cash_flow.id⟩])
    let upperUpdates : List CashBalanceUpdate :=
      match event.upper_bound_inclusive date_range.inclusive_upper_bound with
      | none => []
      | some last_occurrence =>
        if effectively_certainB
            (event.cumulative_probability date_range.inclusive_upper_bound)
            certainty_tolerance then
          let following_date := last_occurrence.value.succ
          let update_amount := amount.min * clamp_certain probability_in_range certainty_tolerance
          [⟨following_date, source, { max := -update_amount }, cash_flow.id⟩,
           ⟨following_date, sink, { min := update_amount }, cash_flow.id⟩]
        else []
    lowerUpdates ++ meanUpdates ++ upperUpdates

/-- `cash_flow.generate_balance_updates`: the per-event update streams of all
schedule-yielded events, merged chronologically. -/
def generate_balance_updates (cash_flow : ScheduledCashFlow) (date_range : DateRange)
    (certainty_tolerance : ℚ) : List CashBalanceUpdate :=
  merge_by_date ((cash_flow.schedule.iterate date_range).map
    (generate_event_updates cash_flow date_range certainty_tolerance))

/-- Groups a list of updates into runs of consecutive equal dates
(`itertools.groupby(updates, key=.date)`): each group is the run's date with
its updates in stream order. -/
def groupByDate : List CashBalanceUpdate → List (Date × List CashBalanceUpdate)
  | [] => []
  | u :: us =>
    match groupByDate us with
    | [] => [(u.date, [u])]
    | (d, g) :: rest =>
      if u.date = d then (d, u :: g) :: rest else (u.date, [u]) :: (d, g) :: rest

/-- Applies one day group of updates to the running balance map
(`endpoint_balances[update.endpoint] += update.delta` in stream order). -/
def applyDay (b : CashEndpoint → FloatDistribution) (g : List CashBalanceUpdate) :
    CashEndpoint → FloatDistribution :=
  g.foldl (fun b u => Function.update b u.endpoint (CashBalanceDelta.radd (b u.endpoint) u.delta)) b

/-- The day-group loop of `cash_flow.accumulate_endpoint_balances`: rejects a
day earlier than the previous one, applies the whole group, then appends one
record (dated at the group's day, end-of-day balance) to every endpoint the
group touched. The record map is a function so that the per-endpoint record
lists are independent of Python's set iteration order, which only affects
dict key order. -/
def accumulateLoop (prev : Date) (b : CashEndpoint → FloatDistribution)
    (r : CashEndpoint → List CashBalanceRecord) :
    List (Date × List CashBalanceUpdate) →
      Except String (CashEndpoint → List CashBalanceRecord)
  | [] => .ok r
  | (day, g) :: rest =>
    if day < prev then .error "updates must be in chronological order"
    else
      let b' := applyDay b g
      accumulateLoop day b'
        (fun e => if g.any (fun u => u.endpoint = e) then r e ++ [⟨day, b' e⟩] else r e) rest

/-- The starting balance map of `cash_flow.accumulate_endpoint_balances`:
endpoints absent from `initial_balances` start at the `min=0 mean=0 max=0`
distribution (`defaultdict(lambda: FloatDistribution.singular(0))` updated
with `initial_balances`). -/
def initialBalanceOf (initial_balances : List (CashEndpoint × FloatDistribution))
    (e : CashEndpoint) : FloatDistribution :=
  match initial_balances.lookup e with
  | some v => v
  | none => FloatDistribution.singular 0

/-- `cash_flow.accumulate_endpoint_balances`: folds a chronologically sorted
update stream into per-endpoint running balances; `prev` starts at
`date.min`. -/
def accumulate_endpoint_balances (updates : List CashBalanceUpdate)
    (initial_balances : List (CashEndpoint × FloatDistribution)) :
    Except String (CashEndpoint → List CashBalanceRecord) :=
  accumulateLoop Date.minDate (initialBalanceOf initial_balances) (fun _ => [])
    (groupByDate updates)

/-- The opening-record step of `cash_flow.simulate_cash_balances`: for each
endpoint with a supplied initial balance, prepend a record at the range's
first day unless a record at or before that day already leads the list. -/
def prependOpening (date_range : DateRange)
    (initial_balances : List (CashEndpoint × FloatDistribution))
    (recs : CashEndpoint → List CashBalanceRecord) :
    CashEndpoint → List CashBalanceRecord := fun e =>
  match initial_balances.lookup e with
  | none => recs e
  | some balance =>
    match recs e with
    | [] => [⟨date_range.inclusive_lower_bound, balance⟩]
    | r0 :: rs =>
      if date_range.inclusive_lower_bound < r0.date then
        ⟨date_range.inclusive_lower_bound, balance⟩ :: r0 :: rs
      else r0 :: rs

/-- The closing-record step of `cash_flow.simulate_cash_balances`: append a
record at the range's exclusive upper bound carrying the last record's
balance forward, when the last record is strictly earlier. (The source's
`if not records` disjunct would index an empty list; it is unreachable
because after the opening step every tracked endpoint has a record.) -/
def appendClosing (ub : Date) (rs : List CashBalanceRecord) : List CashBalanceRecord :=
  match rs.getLast? with
  | none => rs
  | some lastR => if lastR.date < ub then rs ++ [⟨ub, lastR.amount⟩] else rs

/-- `cash_flow.simulate_cash_balances`: merge every flow's balance updates,
accumulate them, and — unless the queried range is empty — add the synthetic
opening and closing records. The result maps each endpoint to its
chronological record list (Python returns a dict over the endpoints that were
touched or given an initial balance; untouched endpoints map to `[]` here). -/
def simulate_cash_balances (cash_flows : List ScheduledCashFlow) (date_range : DateRange)
    (initial_balances : List (CashEndpoint × FloatDistribution))
    (certainty_tolerance : ℚ) :
    Except String (CashEndpoint → List CashBalanceRecord) := do
  let balance_updates := merge_by_date
    (cash_flows.map (fun f => generate_balance_updates f date_range certainty_tolerance))
  let balance_records ← accumulate_endpoint_balances balance_updates initial_balances
  if date_range.is_empty then
    pure balance_records
  else
    pure (fun e =>
      appendClosing date_range.exclusive_upper_bound
        (prependOpening date_range initial_balances balance_records e))

/-- An endpoint of the legacy module `core.py`, where `Account` is the
balance-tracked subclass: `is_account` models `isinstance(endpoint, Account)`. -/
structure CoreEndpoint where
  label : String
  is_account : Bool
deriving DecidableEq

/-- `core.CashFlow`: funds flowing from a source to a sink. -/
structure CoreCashFlow where
  label : String
  source : CoreEndpoint
  sink : CoreEndpoint
  amount : FloatDistribution

/-- `core.CashFlowEvent`: one uncertain-date instance of a cash flow. Python
events compare by object identity (`eq=False`); `id` models that identity for
the `seen_cash_flow_events` set. -/
structure CoreCashFlowEvent where
  id : ℕ
  cash_flow : CoreCashFlow

/-- `core.CashFlowOccurrence`: a discrete outcome of an event's date
distribution together with its originating event. -/
structure CoreOccurrence where
  value : Date
  probability : ℚ
  cumulative_probability : ℚ
  event : CoreCashFlowEvent

/-- `core.CashDelta`: a change in cash balance with uncertainty. -/
structure CashDelta where
  min : ℚ := 0
  max : ℚ := 0
  mean : ℚ := 0
deriving DecidableEq

/-- `core.AccountBalanceEvent`: a dated delta applied to an account. -/
structure AccountBalanceEvent where
  date : Date
  account : CoreEndpoint
  delta : CashDelta
deriving DecidableEq

/-- The generator loop of `core.generate_account_balance_events`, carrying the
`seen_cash_flow_events` identity set and the `defer_queue` of future-dated
events. Per occurrence it first yields the queued events dated at or before
the occurrence, then the lower-bound impulses (for unseen events), deferring
the mean accrual and — when the occurrence's cumulative probability is
effectively certain — the upper-bound correction; each impulse or deferred
event is produced only for an `Account` source or sink. When the input ends,
the remaining deferred events are not yielded (the Python generator returns
without draining `defer_queue`). -/
def generateAccountEventsLoop (certainty_tolerance : ℚ) (seen : List ℕ)
    (defer_queue : List AccountBalanceEvent) :
    List CoreOccurrence → List AccountBalanceEvent
  | [] => []
  | occurrence :: rest =>
    let ready := defer_queue.takeWhile (fun e => e.date ≤ occurrence.value)
    let queue1 := defer_queue.dropWhile (fun e => e.date ≤ occurrence.value)
    let cash_flow := occurrence.event.cash_flow
    let source := cash_flow.source
    let sink := cash_flow.sink
    let amount := cash_flow.amount
    let following_date := occurrence.value.succ
    let lower : List AccountBalanceEvent :=
      if occurrence.event.id ∈ seen then []
      else
        (if source.is_account then [⟨occurrence.value, source, { min := -amount.max }⟩] else []) ++
        (if sink.is_account then [⟨occurrence.value, sink, { max := amount.max }⟩] else [])
    let queue2 := queue1 ++
      (if source.is_account then
        [⟨following_date, source, { mean := -(amount.mean * occurrence.probability) }⟩] else []) ++
      (if sink.is_account then
        [⟨following_date, sink, { mean := amount.mean * occurrence.probability }⟩] else []) ++
      (if effectively_certainB occurrence.cumulative_probability certainty_tolerance then
        (if source.is_account then [⟨following_date, source, { max := -amount.min }⟩] else []) ++
        (if sink.is_account then [⟨following_date, sink, { min := amount.min }⟩] else [])
      else [])
    ready ++ lower ++ generateAccountEventsLoop certainty_tolerance
      (occurrence.event.id :: seen) queue2 rest

/-- `core.generate_account_balance_events` on a chronological occurrence
stream. -/
def generate_account_balance_events (cash_flows : List CoreOccurrence)
    (certainty_tolerance : ℚ) : List AccountBalanceEvent :=
  generateAccountEventsLoop certainty_tolerance [] [] cash_flows

/-- The source endpoint of the C1/C5 scenario flows. -/
def scenarioSource (k : EndpointKind) : CashEndpoint := ⟨"source", k⟩

/-- The sink endpoint of the C1/C5 scenario flows. -/
def scenarioSink (k : EndpointKind) : CashEndpoint := ⟨"sink", k⟩

/-- The scenario cash flow: amount `{min:10, mean:11, max:25}` on a `Monthly`
schedule on day 6 (endpoint kinds vary per claim). -/
def scenarioFlow (srcKind sinkKind : EndpointKind) : ScheduledCashFlow :=
  ⟨0, "schedule", scenarioSource srcKind, scenarioSink sinkKind, ⟨10, 25, 11⟩,
    .monthly ⟨.num 6, DateRange.all, 1, []⟩⟩

/-- The queried range of the C1/C5 scenario: `[2023-06-06, 2023-08-06]`
inclusive. -/
def scenarioRange : DateRange := DateRange.inclusive ⟨2023, 6, 6⟩ ⟨2023, 8, 6⟩

/-- C1: for the cash flow with amount `{min:10, mean:11, max:25}` and a
`Monthly` schedule on day 6, `generate_balance_updates` over the inclusive
range `[2023-06-06, 2023-08-06]` (default certainty tolerance) yields exactly
the 18 updates of the claim, in chronological order: for each of June, July
and August 2023, on the 6th a source update `min -= 25` and a sink update
`max += 25`, and on the 7th a source update `mean -= 11`, a sink update
`mean += 11`, a source update `max -= 10` and a sink update `min += 10`. -/
theorem generate_balance_updates_monthly_certain_scenario :
    generate_balance_updates (scenarioFlow .incomeSource .expenseSink) scenarioRange
      DEFAULT_CERTAINTY_TOLERANCE =
    [⟨⟨2023, 6, 6⟩, scenarioSource .incomeSource, { min := -25 }, 0⟩,
     ⟨⟨2023, 6, 6⟩, scenarioSink .expenseSink, { max := 25 }, 0⟩,
     ⟨⟨2023, 6, 7⟩, scenarioSource .incomeSource, { mean := -11 }, 0⟩,
     ⟨⟨2023, 6, 7⟩, scenarioSink .expenseSink, { mean := 11 }, 0⟩,
     ⟨⟨2023, 6, 7⟩, scenarioSource .incomeSource, { max := -10 }, 0⟩,
     ⟨⟨2023, 6, 7⟩, scenarioSink .expenseSink, { min := 10 }, 0⟩,
     ⟨⟨2023, 7, 6⟩, scenarioSource .incomeSource, { min := -25 }, 0⟩,
     ⟨⟨2023, 7, 6⟩, scenarioSink .expenseSink, { max := 25 }, 0⟩,
     ⟨⟨2023, 7, 7⟩, scenarioSource .incomeSource, { mean := -11 }, 0⟩,
     ⟨⟨2023, 7, 7⟩, scenarioSink .expenseSink, { mean := 11 }, 0⟩,
     ⟨⟨2023, 7, 7⟩, scenarioSource .incomeSource, { max := -10 }, 0⟩,
     ⟨⟨2023, 7, 7⟩, scenarioSink .expenseSink, { min := 10 }, 0⟩,
     ⟨⟨2023, 8, 6⟩, scenarioSource .incomeSource, { min := -25 }, 0⟩,
     ⟨⟨2023, 8, 6⟩, scenarioSink .expenseSink, { max := 25 }, 0⟩,
     ⟨⟨2023, 8, 7⟩, scenarioSource .incomeSource, { mean := -11 }, 0⟩,
     ⟨⟨2023, 8, 7⟩, scenarioSink .expenseSink, { mean := 11 }, 0⟩,
     ⟨⟨2023, 8, 7⟩, scenarioSource .incomeSource, { max := -10 }, 0⟩,
     ⟨⟨2023, 8, 7⟩, scenarioSink .expenseSink, { min := 10 }, 0⟩] := by
  with_unfolding_all decide

/-- C5, counterexample: `cash_flow.generate_balance_updates` emits balance
updates addressed to a plain (non-account) income-source endpoint, so the
claim that non-account endpoints "receive no balance updates at all" fails on
the newer generator. -/
theorem generate_balance_updates_nonaccount_counterexample :
    (scenarioSource .incomeSource).isAccountKind = false ∧
    ((generate_balance_updates (scenarioFlow .incomeSource .expenseSink) scenarioRange
        DEFAULT_CERTAINTY_TOLERANCE).filter
      (fun u => u.endpoint = scenarioSource .incomeSource)).length = 9 := by
  refine ⟨rfl, ?_⟩
  with_unfolding_all decide

/-- C5, amended: the endpoint-kind filtering described by the spec is
performed by the legacy `core.generate_account_balance_events`, which emits
events only for `Account` endpoints — every emitted event targets an account,
for every occurrence stream, tolerance, seen-set and (account-targeting)
defer queue; `cash_flow.generate_balance_updates` performs no such filtering
(see the counterexample). -/
theorem account_balance_events_only_accounts (cash_flows : List CoreOccurrence)
    (certainty_tolerance : ℚ) :
    ∀ ev ∈ generate_account_balance_events cash_flows certainty_tolerance,
      ev.account.is_account = true := by
  have loop : ∀ (occs : List CoreOccurrence) (tol : ℚ) (seen : List ℕ)
      (queue : List AccountBalanceEvent),
      (∀ e ∈ queue, e.account.is_account = true) →
      ∀ ev ∈ generateAccountEventsLoop tol seen queue occs, ev.account.is_account = true := by
    intro occs
    induction occs with
    | nil => intro tol seen queue hq ev hev; simp [generateAccountEventsLoop] at hev
    | cons occ rest ih =>
      intro tol seen queue hq ev hev
      simp only [generateAccountEventsLoop, List.mem_append] at hev
      rcases hev with (hev | hev) | hev
      · exact hq ev (List.takeWhile_subset _ hev)
      · by_cases hseen : occ.event.id ∈ seen
        · simp [hseen] at hev
        · simp only [hseen, if_false, List.mem_append] at hev
          rcases hev with hev | hev
          · by_cases hs : occ.event.cash_flow.source.is_account
            · simp [hs] at hev; simp [hev, hs]
            · simp [hs] at hev
          · by_cases hs : occ.event.cash_flow.sink.is_account
            · simp [hs] at hev; simp [hev, hs]
            · simp [hs] at hev
      · refine ih tol (occ.event.id :: seen) _ ?_ ev hev
        intro e he
        simp only [List.mem_append] at he
        rcases he with ((he | he) | he) | he
        · exact hq e (List.dropWhile_subset _ he)
        · by_cases hs : occ.event.cash_flow.source.is_account
          · simp [hs] at he; simp [he, hs]
          · simp [hs] at he
        · by_cases hs : occ.event.cash_flow.sink.is_account
          · simp [hs] at he; simp [he, hs]
          · simp [hs] at he
        · split at he
          · simp only [List.mem_append] at he
            rcases he with he | he
            · by_cases hs : occ.event.cash_flow.source.is_account
              · simp [hs] at he; simp [he, hs]
              · simp [hs] at he
            · by_cases hs : occ.event.cash_flow.sink.is_account
              · simp [hs] at he; simp [he, hs]
              · simp [hs] at he
          · simp at he
  exact loop cash_flows certainty_tolerance [] [] (by intro e he; simp at he)

/-- A concrete occurrence used to witness the amended C5 theorem: one certain
occurrence of a flow from an account source to a non-account sink. -/
def witnessOccurrence : CoreOccurrence :=
  ⟨⟨2023, 1, 5⟩, 1, 1, ⟨0, ⟨"f", ⟨"acc", true⟩, ⟨"snk", false⟩, ⟨10, 20, 15⟩⟩⟩⟩

/-- C5, witness for the amended theorem at a concrete input: the lower-bound
impulse the legacy generator emits for `witnessOccurrence` targets an account. -/
theorem account_balance_events_only_accounts_witness :
    (⟨⟨2023, 1, 5⟩, ⟨"acc", true⟩, { min := -20 }⟩ : AccountBalanceEvent).account.is_account
      = true :=
  account_balance_events_only_accounts [witnessOccurrence] DEFAULT_CERTAINTY_TOLERANCE
    ⟨⟨2023, 1, 5⟩, ⟨"acc", true⟩, { min := -20 }⟩ (by with_unfolding_all decide)

/-- C9, counterexample: `simulate_cash_balances` appends a synthetic closing
record even when the queried range has no proper upper bound. With no flows,
an initial balance for one endpoint and the upper-unbounded range
`beginning_at 2023-01-01` (exclusive upper bound `date.max`), the endpoint's
records end with a closing record at `date.max`, although
`has_proper_upper_bound` is false. -/
theorem simulate_appends_closing_without_proper_upper_bound :
    (DateRange.beginning_at ⟨2023, 1, 1⟩).has_proper_upper_bound = false ∧
    (simulate_cash_balances [] (DateRange.beginning_at ⟨2023, 1, 1⟩)
        [(⟨"foo", .account⟩, FloatDistribution.singular 15)]
        DEFAULT_CERTAINTY_TOLERANCE).toOption.map (fun f => f ⟨"foo", .account⟩)
      = some [⟨⟨2023, 1, 1⟩, FloatDistribution.singular 15⟩,
              ⟨⟨9999, 12, 31⟩, FloatDistribution.singular 15⟩] := by
  exact ⟨rfl, by decide⟩

/-- C9, amended: the closing step of `simulate_cash_balances` appends a
synthetic record at the range's exclusive upper bound carrying forward the
last record's balance whenever the endpoint has records and the last one is
dated strictly earlier — no record is appended exactly when a record already
sits at that date. The properness of the range's upper bound plays no role. -/
theorem closing_record_characterisation (rs : List CashBalanceRecord) (ub : Date)
    (hne : rs ≠ []) (hle : ∀ r ∈ rs, r.date ≤ ub) :
    ∃ lastOld lastNew, rs.getLast? = some lastOld ∧
      (appendClosing ub rs).getLast? = some lastNew ∧
      lastNew.date = ub ∧ lastNew.amount = lastOld.amount ∧
      (appendClosing ub rs = rs ↔ lastOld.date = ub) := by
  obtain ⟨lastOld, hlast⟩ : ∃ lastOld, rs.getLast? = some lastOld := by
    cases h : rs.getLast? with
    | none => exact absurd (List.getLast?_eq_none_iff.mp h) hne
    | some o => exact ⟨o, rfl⟩
  have hmem : lastOld ∈ rs := List.mem_of_getLast?_eq_some hlast
  by_cases hlt : lastOld.date < ub
  · refine ⟨lastOld, ⟨ub, lastOld.amount⟩, hlast, ?_, rfl, rfl, ?_⟩
    · simp [appendClosing, hlast, hlt]
    · constructor
      · intro heq
        exfalso
        have : rs ++ [(⟨ub, lastOld.amount⟩ : CashBalanceRecord)] = rs := by
          simp only [appendClosing, hlast, hlt, if_true] at heq
          exact heq
        have := congrArg List.length this
        simp at this
      · intro heq
        exact absurd heq (ne_of_lt hlt)
  · have heq : lastOld.date = ub := le_antisymm (hle lastOld hmem) (not_lt.mp hlt)
    refine ⟨lastOld, lastOld, hlast, ?_, heq, rfl, ?_⟩
    · simp [appendClosing, hlast, hlt]
    · simp [appendClosing, hlast, hlt, heq]

/-- C9, witness for the amended theorem at a concrete input: a single record
dated before the upper bound gets a closing record appended at the bound. -/
theorem closing_record_characterisation_witness :
    ∃ lastOld lastNew,
      ([⟨⟨2023, 1, 1⟩, FloatDistribution.singular 0⟩]
          : List CashBalanceRecord).getLast? = some lastOld ∧
      (appendClosing ⟨2023, 1, 2⟩
          [⟨⟨2023, 1, 1⟩, FloatDistribution.singular 0⟩]).getLast? = some lastNew ∧
      lastNew.date = ⟨2023, 1, 2⟩ ∧ lastNew.amount = lastOld.amount ∧
      (appendClosing ⟨2023, 1, 2⟩ [⟨⟨2023, 1, 1⟩, FloatDistribution.singular 0⟩]
          = [⟨⟨2023, 1, 1⟩, FloatDistribution.singular 0⟩] ↔
        lastOld.date = ⟨2023, 1, 2⟩) :=
  closing_record_characterisation [⟨⟨2023, 1, 1⟩, FloatDistribution.singular 0⟩]
    ⟨2023, 1, 2⟩ (by decide) (by decide)

/-- C3: on distributions satisfying `min <= mean <= max`, negation, addition
of a distribution, scalar addition and sign-aware scalar multiplication all
construct successfully — the result again satisfies `min <= mean <= max`, the
exact condition under which `FloatDistribution.__post_init__` accepts. -/
theorem floatDistribution_arithmetic_preserves_invariant
    (d d1 d2 : FloatDistribution) (c : ℚ)
    (hd : d.Valid) (h1 : d1.Valid) (h2 : d2.Valid) :
    d.neg.Valid ∧ (d1.addDist d2).Valid ∧ (d.addScalar c).Valid ∧ (d.mulScalar c).Valid := by
  obtain ⟨hd1, hd2⟩ := hd
  obtain ⟨h11, h12⟩ := h1
  obtain ⟨h21, h22⟩ := h2
  refine ⟨⟨?_, ?_⟩, ⟨?_, ?_⟩, ⟨?_, ?_⟩, ?_⟩
  · simpa [FloatDistribution.neg, FloatDistribution.Valid] using hd2
  · simpa [FloatDistribution.neg, FloatDistribution.Valid] using hd1
  · simpa [FloatDistribution.addDist, FloatDistribution.Valid] using add_le_add h11 h21
  · simpa [FloatDistribution.addDist, FloatDistribution.Valid] using add_le_add h12 h22
  · simpa [FloatDistribution.addScalar, FloatDistribution.Valid] using hd1
  · simpa [FloatDistribution.addScalar, FloatDistribution.Valid] using hd2
  · by_cases hc : 0 ≤ c
    · exact ⟨by simpa [FloatDistribution.mulScalar, hc] using mul_le_mul_of_nonneg_right hd1 hc,
        by simpa [FloatDistribution.mulScalar, hc] using mul_le_mul_of_nonneg_right hd2 hc⟩
    · have hc' : c ≤ 0 := le_of_not_le hc
      exact ⟨by simpa [FloatDistribution.mulScalar, hc] using mul_le_mul_of_nonpos_right hd2 hc',
        by simpa [FloatDistribution.mulScalar, hc] using mul_le_mul_of_nonpos_right hd1 hc'⟩

/-- C3, witness at concrete inputs: the operations on `{0, 1, 2}`-style
envelopes and the negative scalar `-3` preserve the invariant. -/
theorem floatDistribution_arithmetic_preserves_invariant_witness :
    (⟨0, 2, 1⟩ : FloatDistribution).neg.Valid ∧
    (FloatDistribution.addDist ⟨1, 4, 2⟩ ⟨-2, 0, -1⟩).Valid ∧
    (FloatDistribution.addScalar ⟨0, 2, 1⟩ (-3)).Valid ∧
    (FloatDistribution.mulScalar ⟨0, 2, 1⟩ (-3)).Valid :=
  floatDistribution_arithmetic_preserves_invariant ⟨0, 2, 1⟩ ⟨1, 4, 2⟩ ⟨-2, 0, -1⟩ (-3)
    (by constructor <;> norm_num [FloatDistribution.Valid])
    (by constructor <;> norm_num [FloatDistribution.Valid])
    (by constructor <;> norm_num [FloatDistribution.Valid])

/-- C7: with a nonnegative tolerance, `certain_in` never raises; it returns
true exactly when the distribution has at least one outcome, the first
outcome's value is at least `lo`, the last outcome's value is below `hi`, and
the last outcome's cumulative probability is within `tolerance` of 1 — and in
particular it returns false on the empty distribution. -/
theorem certain_in_characterisation {α : Type} [LinearOrder α] (d : DiscreteDistribution α)
    (lo hi : α) (tolerance : ℚ) (htol : 0 ≤ tolerance) :
    (∃ b, d.certain_in lo hi tolerance = .ok b) ∧
    (d.outcomes = [] → d.certain_in lo hi tolerance = .ok false) ∧
    (d.certain_in lo hi tolerance = .ok true ↔
      ∃ o₁ oₙ, d.outcomes.head? = some o₁ ∧ d.outcomes.getLast? = some oₙ ∧
        lo ≤ o₁.value ∧ oₙ.value < hi ∧ 1 - tolerance ≤ oₙ.cumulative_probability) := by
  have hnotneg : ¬ tolerance < 0 := not_lt.mpr htol
  rcases houts : d.outcomes with _ | ⟨o, rest⟩
  · refine ⟨⟨false, ?_⟩, fun _ => ?_, ?_⟩
    · simp [DiscreteDistribution.certain_in, houts]
    · simp [DiscreteDistribution.certain_in, houts]
    · simp [DiscreteDistribution.certain_in, houts]
  · have hlast : (o :: rest).getLast? = some ((o :: rest).getLast (List.cons_ne_nil o rest)) :=
      List.getLast?_eq_getLast _ _
    by_cases hcond : lo ≤ o.value ∧ ((o :: rest).getLast (List.cons_ne_nil o rest)).value < hi
    · refine ⟨⟨decide (1 - tolerance ≤
          ((o :: rest).getLast (List.cons_ne_nil o rest)).cumulative_probability), ?_⟩,
        fun h => by simp [houts] at h, ?_⟩
      · simp [DiscreteDistribution.certain_in, houts, hcond, effectively_certain, hnotneg]
      · rw [show d.certain_in lo hi tolerance = .ok (decide (1 - tolerance ≤
            ((o :: rest).getLast (List.cons_ne_nil o rest)).cumulative_probability)) by
          simp [DiscreteDistribution.certain_in, houts, hcond, effectively_certain, hnotneg]]
        constructor
        · intro h
          have hcum := of_decide_eq_true (Except.ok.inj h)
          exact ⟨o, (o :: rest).getLast (List.cons_ne_nil o rest), rfl,
            hlast, hcond.1, hcond.2, hcum⟩
        · rintro ⟨o₁, oₙ, h₁, hₙ, _, _, hcum⟩
          rw [hlast] at hₙ
          have : oₙ = (o :: rest).getLast (List.cons_ne_nil o rest) := (Option.some.inj hₙ).symm
          subst this
          simp [hcum]
    · refine ⟨⟨false, ?_⟩, fun h => by simp [houts] at h, ?_⟩
      · simp [DiscreteDistribution.certain_in, houts, hcond]
      · rw [show d.certain_in lo hi tolerance = .ok false by
          simp [DiscreteDistribution.certain_in, houts, hcond]]
        constructor
        · intro h
          exact absurd (Except.ok.inj h) (by simp)
        · rintro ⟨o₁, oₙ, h₁, hₙ, hlo, hhi, _⟩
          rw [hlast] at hₙ
          have ho₁ : o₁ = o := by simpa using h₁.symm
          have hoₙ : oₙ = (o :: rest).getLast (List.cons_ne_nil o rest) :=
            (Option.some.inj hₙ).symm
          subst ho₁; subst hoₙ
          exact absurd ⟨hlo, hhi⟩ hcond

/-- C7, witness at a concrete input: for the singleton distribution at value 4
with probability 1, `certain_in 4 5 0` never raises, and it returns true with
the characterising conditions met. -/
theorem certain_in_characterisation_witness :
    (∃ b, (⟨[⟨4, 1, 1⟩]⟩ : DiscreteDistribution ℕ).certain_in 4 5 0 = .ok b) ∧
    ((⟨[⟨4, 1, 1⟩]⟩ : DiscreteDistribution ℕ).outcomes = [] →
      (⟨[⟨4, 1, 1⟩]⟩ : DiscreteDistribution ℕ).certain_in 4 5 0 = .ok false) ∧
    ((⟨[⟨4, 1, 1⟩]⟩ : DiscreteDistribution ℕ).certain_in 4 5 0 = .ok true ↔
      ∃ o₁ oₙ, (⟨[⟨4, 1, 1⟩]⟩ : DiscreteDistribution ℕ).outcomes.head? = some o₁ ∧
        (⟨[⟨4, 1, 1⟩]⟩ : DiscreteDistribution ℕ).outcomes.getLast? = some oₙ ∧
        4 ≤ o₁.value ∧ oₙ.value < 5 ∧ 1 - 0 ≤ oₙ.cumulative_probability) :=
  certain_in_characterisation ⟨[⟨4, 1, 1⟩]⟩ 4 5 0 le_rfl

/-- C8: constructing a `Weekly` or `Monthly` schedule whose period is not 1
over a range without a proper lower bound fails validation, whatever the day
argument; with a valid day argument and period at least 1, construction
succeeds whenever the period is 1 or the range has a proper lower bound. -/
theorem schedule_period_requires_lower_bound (wd : WeeklyDay) (md : MonthlyDay)
    (range : DateRange) (period : ℤ) (exclude : List ExcludeEntry) :
    (period ≠ 1 → range.has_proper_lower_bound = false →
      Weekly.mk? wd range period exclude = none ∧
      Monthly.mk? md range period exclude = none) ∧
    (wd.argOk → 1 ≤ period → (period = 1 ∨ range.has_proper_lower_bound = true) →
      (Weekly.mk? wd range period exclude).isSome) ∧
    (md.argOk → 1 ≤ period → (period = 1 ∨ range.has_proper_lower_bound = true) →
      (Monthly.mk? md range period exclude).isSome) := by
  refine ⟨fun hp hlb => ?_, fun hday hp hor => ?_, fun hday hp hor => ?_⟩
  · constructor
    · unfold Weekly.mk?
      split
      · rfl
      · split
        · rfl
        · simp [hp, hlb]
    · unfold Monthly.mk?
      split
      · rfl
      · split
        · rfl
        · simp [hp, hlb]
  · cases wd with
    | num n =>
      obtain ⟨h0, h6⟩ := hday
      simp only [Weekly.mk?]
      rw [if_neg (by simp [h0, h6])]
      rw [if_neg (by omega)]
      rcases hor with h1 | h2
      · rw [if_neg (by simp [h1])]; rfl
      · rw [if_neg (by simp [h2])]; rfl
    | dist dd =>
      simp only [Weekly.mk?]
      rw [if_neg (by simp)]
      rw [if_neg (by omega)]
      rcases hor with h1 | h2
      · rw [if_neg (by simp [h1])]; rfl
      · rw [if_neg (by simp [h2])]; rfl
  · cases md with
    | num n =>
      obtain ⟨h1', h31⟩ := hday
      simp only [Monthly.mk?]
      rw [if_neg (by simp [h1', h31])]
      rw [if_neg (by omega)]
      rcases hor with h1 | h2
      · rw [if_neg (by simp [h1])]; rfl
      · rw [if_neg (by simp [h2])]; rfl
    | sched ds =>
      simp only [Monthly.mk?]
      rw [if_neg (by simp)]
      rw [if_neg (by omega)]
      rcases hor with h1 | h2
      · rw [if_neg (by simp [h1])]; rfl
      · rw [if_neg (by simp [h2])]; rfl

/-- C8, witness at concrete inputs: period 3 with a lower-unbounded range is
rejected for both schedule kinds, while period 3 anchored at 2023-01-01 and
period 1 without an anchor are accepted. -/
theorem schedule_period_requires_lower_bound_witness :
    (Weekly.mk? (.num 4) DateRange.all 3 [] = none ∧
      Monthly.mk? (.num 6) DateRange.all 3 [] = none) ∧
    (Weekly.mk? (.num 4) (DateRange.beginning_at ⟨2023, 1, 1⟩) 3 []).isSome ∧
    (Monthly.mk? (.num 6) DateRange.all 1 []).isSome := by
  refine ⟨(schedule_period_requires_lower_bound (.num 4) (.num 6)
      DateRange.all 3 []).1 (by decide) (by decide),
    (schedule_period_requires_lower_bound (.num 4) (.num 6)
      (DateRange.beginning_at ⟨2023, 1, 1⟩) 3 []).2.1 (by simp [WeeklyDay.argOk]) (by decide)
      (Or.inr (by decide)),
    (schedule_period_requires_lower_bound (.num 4) (.num 6)
      DateRange.all 1 []).2.2 (by simp [MonthlyDay.argOk]) (by decide) (Or.inl rfl)⟩

/-- C4: iterating a month's day schedule silently removes the days invalid for
that month and nothing else — every outcome a yielded distribution keeps is
one of the original outcome records (value, probability and cumulative
probability unchanged, no renormalization) whose day is valid for the month,
and conversely every original outcome with a valid day survives in a yielded
distribution. In particular, `Monthly` on day 31 queried over February and
March of non-leap 2023 yields no February occurrence but the normal
certain occurrence at 2023-03-31. -/
theorem monthly_invalid_day_handling :
    (∀ (s : SimpleDayOfMonthSchedule) (mo : Month) (dd : DayOfMonthDistribution),
      dd ∈ s.iterate mo → ∀ o ∈ dd.outcomes,
        (∃ d0 ∈ s.distributions, o ∈ d0.outcomes) ∧ mo.has_day o.value = true) ∧
    (∀ (s : SimpleDayOfMonthSchedule) (mo : Month) (d0 : DayOfMonthDistribution),
      d0 ∈ s.distributions → ∀ o ∈ d0.outcomes, mo.has_day o.value = true →
        ∃ dd, dd ∈ s.iterate mo ∧ o ∈ dd.outcomes) ∧
    Monthly.iterate ⟨.num 31, DateRange.all, 1, []⟩
        (DateRange.inclusive ⟨2023, 2, 1⟩ ⟨2023, 3, 31⟩)
      = [⟨[⟨⟨2023, 3, 31⟩, 1, 1⟩]⟩] := by
  refine ⟨?_, ?_, ?_⟩
  · intro s mo dd hdd o ho
    rw [SimpleDayOfMonthSchedule.iterate, List.mem_filter] at hdd
    obtain ⟨hmap, _⟩ := hdd
    obtain ⟨d0, hd0, hdd⟩ := List.mem_map.mp hmap
    subst hdd
    rw [DiscreteDistribution.subset] at ho
    simp only [Bool.false_eq_true, if_false] at ho
    have := List.mem_filter.mp ho
    exact ⟨⟨d0, hd0, this.1⟩, this.2⟩
  · intro s mo d0 hd0 o ho hvalid
    refine ⟨d0.subset mo.has_day false, ?_, ?_⟩
    · rw [SimpleDayOfMonthSchedule.iterate, List.mem_filter]
      refine ⟨List.mem_map.mpr ⟨d0, hd0, rfl⟩, ?_⟩
      rw [DiscreteDistribution.subset]
      simp only [Bool.false_eq_true, if_false, DiscreteDistribution.has_possible_outcomes]
      have : o ∈ d0.outcomes.filter (fun x => mo.has_day x.value) :=
        List.mem_filter.mpr ⟨ho, hvalid⟩
      simpa using List.ne_nil_of_mem this
    · rw [DiscreteDistribution.subset]
      simp only [Bool.false_eq_true, if_false]
      exact List.mem_filter.mpr ⟨ho, hvalid⟩
  · with_unfolding_all decide

/-- C4, witness at concrete inputs for the two quantified parts: for the
singleton day-31 schedule, February 2023 keeps nothing (vacuously agreeing
with the forward direction) and the same outcome survives for March 2023. -/
theorem monthly_invalid_day_handling_witness :
    (∃ dd, dd ∈ SimpleDayOfMonthSchedule.iterate ⟨[⟨[⟨31, 1, 1⟩]⟩]⟩ ⟨2023, 3⟩ ∧
      (⟨31, 1, 1⟩ : DiscreteOutcome ℕ) ∈ dd.outcomes) ∧
    ((⟨31, 1, 1⟩ : DiscreteOutcome ℕ) ∈
        (⟨[⟨31, 1, 1⟩]⟩ : DayOfMonthDistribution).outcomes ∧
      Month.has_day ⟨2023, 3⟩ 31 = true) :=
  ⟨(monthly_invalid_day_handling.2.1 ⟨[⟨[⟨31, 1, 1⟩]⟩]⟩ ⟨2023, 3⟩ ⟨[⟨31, 1, 1⟩]⟩
      (by simp) ⟨31, 1, 1⟩ (by simp) (by decide)),
    by
      have := monthly_invalid_day_handling.1 ⟨[⟨[⟨31, 1, 1⟩]⟩]⟩ ⟨2023, 3⟩
        (DiscreteDistribution.subset ⟨[⟨31, 1, 1⟩]⟩ (Month.has_day ⟨2023, 3⟩) false)
        (by with_unfolding_all decide) ⟨31, 1, 1⟩ (by with_unfolding_all decide)
      exact ⟨by simp, this.2⟩⟩

/-- Upgrades an adjacent chain to a full pairwise property for a relation that
is transitive on the list's elements. -/
theorem chain'_pairwise_of_mem_trans {α : Type} {R : α → α → Prop} :
    ∀ {l : List α}, (∀ a b c, a ∈ l → b ∈ l → c ∈ l → R a b → R b c → R a c) →
      List.Chain' R l → List.Pairwise R l
  | [], _, _ => List.Pairwise.nil
  | [_], _, _ => by simp
  | a :: b :: t, htrans, hchain => by
    obtain ⟨hab, hchain'⟩ := List.chain'_cons.mp hchain
    have htrans' : ∀ x y z, x ∈ b :: t → y ∈ b :: t → z ∈ b :: t → R x y → R y z → R x z :=
      fun x y z hx hy hz => htrans x y z (List.mem_cons_of_mem a hx)
        (List.mem_cons_of_mem a hy) (List.mem_cons_of_mem a hz)
    have hp : List.Pairwise R (b :: t) := chain'_pairwise_of_mem_trans htrans' hchain'
    refine List.Pairwise.cons ?_ hp
    intro x hx
    rcases List.mem_cons.mp hx with rfl | hx'
    · exact hab
    · exact htrans a b x (by simp) (by simp) (by simp [hx']) hab
        ((List.pairwise_cons.mp hp).1 x hx')

/-- The sum of a nonnegative map over a filtered list is at most the sum over
the whole list. -/
theorem sum_map_filter_le {α : Type} (g : α → ℚ) (p : α → Bool) :
    ∀ l : List α, (∀ x ∈ l, 0 ≤ g x) → ((l.filter p).map g).sum ≤ (l.map g).sum := by
  intro l
  induction l with
  | nil => intro _; simp
  | cons x t ih =>
    intro hpos
    have ht := ih (fun y hy => hpos y (List.mem_cons_of_mem x hy))
    by_cases hx : p x
    · simp only [List.filter_cons, hx, if_true, List.map_cons, List.sum_cons]
      exact add_le_add_left ht _
    · simp only [List.filter_cons, hx, Bool.false_eq_true, if_false, List.map_cons, List.sum_cons]
      calc ((t.filter p).map g).sum ≤ (t.map g).sum := ht
        _ ≤ g x + (t.map g).sum := le_add_of_nonneg_left (hpos x (List.mem_cons_self x t))

/-- C10: on a validly constructed distribution, `subset` without cumulative
adjustment never raises — the filtered outcome sequence again satisfies every
constructor invariant (per-outcome bounds, strictly increasing values,
cumulative-probability consistency between consecutive kept outcomes, total
probability at most 1). -/
theorem subset_preserves_validity {α : Type} [LinearOrder α] (d : DiscreteDistribution α)
    (f : α → Bool) (hv : d.Valid) : (d.subset f false).Valid := by
  obtain ⟨hout, hvals, hcum, hsum⟩ := hv
  have houts : (d.subset f false).outcomes = d.outcomes.filter (fun o => f o.value) := by
    simp [DiscreteDistribution.subset]
  refine ⟨?_, ?_, ?_, ?_⟩
  · rw [houts]
    intro o ho
    exact hout o (List.mem_of_mem_filter ho)
  · rw [houts]
    have hpw : List.Pairwise (fun o o' => o.value < o'.value) d.outcomes :=
      chain'_pairwise_of_mem_trans (fun a b c _ _ _ hab hbc => lt_trans hab hbc) hvals
    exact (hpw.sublist (List.filter_sublist _)).chain'
  · rw [houts]
    have hpw : List.Pairwise cumulConsistent d.outcomes := by
      refine chain'_pairwise_of_mem_trans (fun a b c _ hb _ hab hbc => ?_) hcum
      have hbpos : 0 < b.probability := (hout b hb).1
      have hax : a.cumulative_probability ≤ b.cumulative_probability := by
        have := hab
        unfold cumulConsistent at this
        linarith
      unfold cumulConsistent at hbc ⊢
      linarith
    exact (hpw.sublist (List.filter_sublist _)).chain'
  · rw [houts]
    calc ((d.outcomes.filter (fun o => f o.value)).map (fun o => o.probability)).sum
        ≤ (d.outcomes.map (fun o => o.probability)).sum :=
          sum_map_filter_le _ _ d.outcomes (fun o ho => le_of_lt (hout o ho).1)
      _ ≤ 1 := hsum

/-- C10, witness at a concrete input: filtering the even values out of a valid
two-outcome distribution yields a distribution still satisfying every
constructor invariant. -/
theorem subset_preserves_validity_witness :
    ((⟨[⟨1, 1/2, 1/2⟩, ⟨2, 1/2, 1⟩]⟩ : DiscreteDistribution ℕ).subset
      (fun v => v % 2 = 0) false).Valid :=
  subset_preserves_validity ⟨[⟨1, 1/2, 1/2⟩, ⟨2, 1/2, 1⟩]⟩ (fun v => v % 2 = 0) (by
    refine ⟨?_, ?_, ?_, ?_⟩
    · intro o ho
      rcases List.mem_cons.mp ho with rfl | ho'
      · refine ⟨by norm_num, by norm_num, by norm_num, by norm_num⟩
      · rcases List.mem_cons.mp ho' with rfl | ho''
        · refine ⟨by norm_num, by norm_num, by norm_num, by norm_num⟩
        · simp at ho''
    · refine List.chain'_cons.mpr ⟨by norm_num, by simp⟩
    · refine List.chain'_cons.mpr ⟨by unfold cumulConsistent; norm_num, by simp⟩
    · simp only [List.map_cons, List.map_nil, List.sum_cons, List.sum_nil]
      norm_num)

/-- Folding a list of updates' deltas into a balance (the per-endpoint effect
of repeated `+= update.delta`). -/
def foldDeltas (x : FloatDistribution) (l : List CashBalanceUpdate) : FloatDistribution :=
  l.foldl (fun acc u => CashBalanceDelta.radd acc u.delta) x

theorem foldDeltas_append (x : FloatDistribution) (l1 l2 : List CashBalanceUpdate) :
    foldDeltas x (l1 ++ l2) = foldDeltas (foldDeltas x l1) l2 := by
  unfold foldDeltas
  rw [List.foldl_append]

/-- The delta fold is the component-wise sum of the deltas added to the
starting balance. -/
theorem foldDeltas_components (l : List CashBalanceUpdate) :
    ∀ x : FloatDistribution, foldDeltas x l =
      ⟨x.min + (l.map (fun u => u.delta.min)).sum,
       x.max + (l.map (fun u => u.delta.max)).sum,
       x.mean + (l.map (fun u => u.delta.mean)).sum⟩ := by
  induction l with
  | nil => intro x; simp [foldDeltas]
  | cons u t ih =>
    intro x
    have step : foldDeltas x (u :: t) = foldDeltas (CashBalanceDelta.radd x u.delta) t := rfl
    rw [step, ih]
    simp [CashBalanceDelta.radd]
    refine ⟨by ring, by ring, by ring⟩

/-- Applying a day group to the balance map affects endpoint `e` exactly by
folding the group's updates addressed to `e`. -/
theorem applyDay_at (g : List CashBalanceUpdate) :
    ∀ (b : CashEndpoint → FloatDistribution) (e : CashEndpoint),
      applyDay b g e = foldDeltas (b e) (g.filter (fun u => u.endpoint = e)) := by
  induction g with
  | nil => intro b e; simp [applyDay, foldDeltas]
  | cons u t ih =>
    intro b e
    have step : applyDay b (u :: t) e =
        applyDay (Function.update b u.endpoint
          (CashBalanceDelta.radd (b u.endpoint) u.delta)) t e := rfl
    rw [step, ih]
    by_cases he : u.endpoint = e
    · subst he
      simp [List.filter_cons, foldDeltas]
    · rw [Function.update_noteq (Ne.symm he)]
      simp [List.filter_cons, he]

/-- `groupByDate` only rearranges the stream into runs: flattening the groups
restores the stream. -/
theorem groupByDate_flatten : ∀ updates : List CashBalanceUpdate,
    (groupByDate updates).flatMap Prod.snd = updates := by
  intro updates
  induction updates with
  | nil => simp [groupByDate]
  | cons u us ih =>
    rw [groupByDate]
    rcases hg : groupByDate us with _ | ⟨⟨d, g⟩, rest⟩
    · rw [hg] at ih
      simp at ih
      simp [ih]
    · rw [hg] at ih
      by_cases hd : u.date = d
      · simp only [hd, if_true]
        simp only [List.flatMap_cons] at ih ⊢
        simp [ih]
      · simp only [hd, if_false]
        simp only [List.flatMap_cons] at ih ⊢
        simp [ih]

/-- The key of the first group is the date of the first update. -/
theorem groupByDate_head_key : ∀ {us : List CashBalanceUpdate} {d : Date}
    {g : List CashBalanceUpdate} {rest : List (Date × List CashBalanceUpdate)},
    groupByDate us = (d, g) :: rest → ∃ v vs, us = v :: vs ∧ v.date = d := by
  intro us d g rest h
  cases us with
  | nil => simp [groupByDate] at h
  | cons v vs =>
    refine ⟨v, vs, rfl, ?_⟩
    rw [groupByDate] at h
    rcases hg : groupByDate vs with _ | ⟨⟨d', g'⟩, rest'⟩
    · rw [hg] at h
      exact (Prod.mk.injEq _ _ _ _).mp (List.cons.inj h).1 |>.1
    · rw [hg] at h
      by_cases hd : v.date = d'
      · simp only [hd, if_true] at h
        have := (Prod.mk.injEq _ _ _ _).mp (List.cons.inj h).1
        rw [hd]
        exact this.1
      · simp only [hd, if_false] at h
        exact (Prod.mk.injEq _ _ _ _).mp (List.cons.inj h).1 |>.1

/-- `groupByDate` yields no groups only for the empty stream. -/
theorem groupByDate_eq_nil : ∀ {us : List CashBalanceUpdate},
    groupByDate us = [] → us = [] := by
  intro us h
  cases us with
  | nil => rfl
  | cons v vs =>
    rw [groupByDate] at h
    rcases hg : groupByDate vs with _ | ⟨⟨d', g'⟩, rest'⟩
    · rw [hg] at h; simp at h
    · rw [hg] at h
      by_cases hd : v.date = d'
      · simp [hd] at h
      · simp [hd] at h

/-- A chronologically sorted stream yields chronologically sorted group keys. -/
theorem groupByDate_keys_sorted : ∀ {updates : List CashBalanceUpdate},
    List.Chain' (fun u v => u.date ≤ v.date) updates →
    List.Chain' (fun a b => a ≤ b) ((groupByDate updates).map Prod.fst) := by
  intro updates
  induction updates with
  | nil => intro _; simp [groupByDate]
  | cons u us ih =>
    intro hchain
    obtain ⟨hhead, htail⟩ := List.chain'_cons'.mp hchain
    have ihk := ih htail
    rw [groupByDate]
    rcases hg : groupByDate us with _ | ⟨⟨d, g⟩, rest⟩
    · simp
    · rw [hg] at ihk
      obtain ⟨v, vs, husv, hvd⟩ := groupByDate_head_key hg
      by_cases hd : u.date = d
      · simpa [hd] using ihk
      · simp only [hd, if_false, List.map_cons]
        refine List.chain'_cons.mpr ⟨?_, by simpa using ihk⟩
        have : u.date ≤ v.date := by
          apply hhead
          rw [husv]
          rfl
        simpa [hvd] using this
/-- Sorted group keys imply the underlying stream is sorted (updates within a
run share the run's date). -/
theorem updates_sorted_of_keys_sorted : ∀ {updates : List CashBalanceUpdate},
    List.Chain' (fun a b => a ≤ b) ((groupByDate updates).map Prod.fst) →
    List.Chain' (fun u v => u.date ≤ v.date) updates := by
  intro updates
  induction updates with
  | nil => intro _; simp
  | cons u us ih =>
    intro hkeys
    rw [groupByDate] at hkeys
    rcases hg : groupByDate us with _ | ⟨⟨d, g⟩, rest⟩
    · have := groupByDate_eq_nil hg
      subst this
      simp
    · rw [hg] at hkeys
      obtain ⟨v, vs, husv, hvd⟩ := groupByDate_head_key hg
      refine List.chain'_cons'.mpr ⟨?_, ?_⟩
      · intro w hw
        subst husv
        have hw' : v = w := by simpa using hw
        subst hw'
        by_cases hd : u.date = d
        · rw [hd, hvd]
        · simp only [hd, if_false, List.map_cons] at hkeys
          have := (List.chain'_cons.mp hkeys).1
          rw [hvd]
          exact this
      · apply ih
        rw [hg]
        by_cases hd : u.date = d
        · simpa [hd] using hkeys
        · simp only [hd, if_false, List.map_cons] at hkeys
          exact (List.chain'_cons.mp hkeys).2

/-- Invariant of the accumulation loop on a stream with sorted group keys: the
loop succeeds, an endpoint untouched by the remaining groups keeps its record
list, and a touched endpoint's final record carries the starting balance plus
the fold of exactly its own deltas. -/
theorem accumulateLoop_spec :
    ∀ (groups : List (Date × List CashBalanceUpdate)) (prev : Date)
      (b : CashEndpoint → FloatDistribution) (r : CashEndpoint → List CashBalanceRecord),
      List.Chain' (fun a c => a ≤ c) (prev :: groups.map Prod.fst) →
      ∃ res, accumulateLoop prev b r groups = .ok res ∧
        ∀ e : CashEndpoint,
          ((groups.flatMap Prod.snd).filter (fun u => u.endpoint = e) = [] → res e = r e) ∧
          ((groups.flatMap Prod.snd).filter (fun u => u.endpoint = e) ≠ [] →
            ∃ rec, (res e).getLast? = some rec ∧
              rec.amount = foldDeltas (b e)
                ((groups.flatMap Prod.snd).filter (fun u => u.endpoint = e))) := by
  intro groups
  induction groups with
  | nil =>
    intro prev b r _
    refine ⟨r, rfl, fun e => ⟨fun _ => rfl, fun hne => absurd rfl hne⟩⟩
  | cons dg rest ih =>
    obtain ⟨d, g⟩ := dg
    intro prev b r hchain
    obtain ⟨hle, htail⟩ := List.chain'_cons.mp hchain
    have hnotlt : ¬ d < prev := not_lt.mpr hle
    obtain ⟨res, hok, hspec⟩ := ih d (applyDay b g)
      (fun e => if g.any (fun u => u.endpoint = e) then r e ++ [⟨d, applyDay b g e⟩] else r e)
      htail
    refine ⟨res, ?_, ?_⟩
    · simp only [accumulateLoop, hnotlt, if_false]
      exact hok
    · intro e
      have hfl : ((((d, g) :: rest).flatMap Prod.snd).filter (fun u => u.endpoint = e))
          = g.filter (fun u => u.endpoint = e)
            ++ (rest.flatMap Prod.snd).filter (fun u => u.endpoint = e) := by
        simp [List.filter_append]
      constructor
      · intro hempty
        rw [hfl] at hempty
        obtain ⟨hfg, hfr⟩ := List.append_eq_nil.mp hempty
        have hres := (hspec e).1 hfr
        have hany : g.any (fun u => u.endpoint = e) = false := by
          rw [List.any_eq_false]
          intro u hu
          intro hpe
          have : u ∈ g.filter (fun u => u.endpoint = e) :=
            List.mem_filter.mpr ⟨hu, by simpa using hpe⟩
          rw [hfg] at this
          simp at this
        rw [hres, hany]
        simp
      · intro hne
        rw [hfl] at hne
        by_cases hfr : (rest.flatMap Prod.snd).filter (fun u => u.endpoint = e) = []
        · have hfg : g.filter (fun u => u.endpoint = e) ≠ [] := by
            intro hfg
            exact hne (by rw [hfg, hfr]; rfl)
          obtain ⟨u, hu⟩ := List.exists_mem_of_ne_nil _ hfg
          have hany : g.any (fun u => u.endpoint = e) = true := by
            rw [List.any_eq_true]
            have := List.mem_filter.mp hu
            exact ⟨u, this.1, this.2⟩
          have hres := (hspec e).1 hfr
          rw [hres, hany]
          simp only [if_true]
          refine ⟨⟨d, applyDay b g e⟩, List.getLast?_concat _, ?_⟩
          rw [hfl, hfr, List.append_nil, applyDay_at]
        · obtain ⟨rec, hlast, hamount⟩ := (hspec e).2 hfr
          refine ⟨rec, hlast, ?_⟩
          rw [hamount, hfl, foldDeltas_append, applyDay_at]

/-- The accumulation loop raises whenever the group keys are not sorted
relative to the previous day. -/
theorem accumulateLoop_error_of_unsorted :
    ∀ (groups : List (Date × List CashBalanceUpdate)) (prev : Date)
      (b : CashEndpoint → FloatDistribution) (r : CashEndpoint → List CashBalanceRecord),
      ¬ List.Chain' (fun a c => a ≤ c) (prev :: groups.map Prod.fst) →
      ∃ msg, accumulateLoop prev b r groups = .error msg := by
  intro groups
  induction groups with
  | nil =>
    intro prev b r hchain
    exact absurd (by simp) hchain
  | cons dg rest ih =>
    obtain ⟨d, g⟩ := dg
    intro prev b r hchain
    by_cases hlt : d < prev
    · exact ⟨"updates must be in chronological order", by simp [accumulateLoop, hlt]⟩
    · have hle : prev ≤ d := not_lt.mp hlt
      have htail : ¬ List.Chain' (fun a c => a ≤ c) (d :: rest.map Prod.fst) := by
        intro htail
        exact hchain (List.chain'_cons.mpr ⟨hle, htail⟩)
      obtain ⟨msg, hmsg⟩ := ih d (applyDay b g)
        (fun e => if g.any (fun u => u.endpoint = e) then r e ++ [⟨d, applyDay b g e⟩] else r e)
        htail
      refine ⟨msg, ?_⟩
      simp only [accumulateLoop, hlt, if_false]
      exact hmsg

/-- C2: accumulation of a chronologically sorted update stream (the embedding
is a pure function, hence deterministic by construction) succeeds, and for an
endpoint with at least one update the last emitted record's amount is the
endpoint's initial balance (default `{min:0, mean:0, max:0}`) plus the
component-wise sums of the min, max and mean deltas addressed to it. -/
theorem accumulate_endpoint_balances_final_balance (updates : List CashBalanceUpdate)
    (initial_balances : List (CashEndpoint × FloatDistribution)) (e : CashEndpoint)
    (hmin : ∀ u ∈ updates, Date.minDate ≤ u.date)
    (hsorted : List.Chain' (fun u v => u.date ≤ v.date) updates)
    (htouched : updates.filter (fun u => u.endpoint = e) ≠ []) :
    ∃ res rec, accumulate_endpoint_balances updates initial_balances = .ok res ∧
      (res e).getLast? = some rec ∧
      rec.amount.min = (initialBalanceOf initial_balances e).min
        + ((updates.filter (fun u => u.endpoint = e)).map (fun u => u.delta.min)).sum ∧
      rec.amount.max = (initialBalanceOf initial_balances e).max
        + ((updates.filter (fun u => u.endpoint = e)).map (fun u => u.delta.max)).sum ∧
      rec.amount.mean = (initialBalanceOf initial_balances e).mean
        + ((updates.filter (fun u => u.endpoint = e)).map (fun u => u.delta.mean)).sum := by
  have hkeys : List.Chain' (fun a c => a ≤ c)
      (Date.minDate :: (groupByDate updates).map Prod.fst) := by
    refine List.chain'_cons'.mpr ⟨?_, groupByDate_keys_sorted hsorted⟩
    intro k hk
    rcases hg : groupByDate updates with _ | ⟨⟨d, g⟩, rest⟩
    · rw [hg] at hk; simp at hk
    · rw [hg] at hk
      obtain ⟨v, vs, husv, hvd⟩ := groupByDate_head_key hg
      have hkd : k = d := by
        have hk2 := hk
        simp at hk2
        exact hk2.symm
      rw [hkd, ← hvd]
      exact hmin v (by rw [husv]; exact List.mem_cons_self v vs)
  obtain ⟨res, hok, hspec⟩ := accumulateLoop_spec (groupByDate updates) Date.minDate
    (initialBalanceOf initial_balances) (fun _ => []) hkeys
  have hflat : (groupByDate updates).flatMap Prod.snd = updates := groupByDate_flatten updates
  rw [hflat] at hspec
  obtain ⟨rec, hlast, hamount⟩ := (hspec e).2 htouched
  refine ⟨res, rec, hok, hlast, ?_, ?_, ?_⟩ <;>
    rw [hamount, foldDeltas_components]

/-- The two-update stream used to witness the C2 theorem. -/
def witnessUpdates : List CashBalanceUpdate :=
  [⟨⟨2023, 1, 16⟩, ⟨"e1", .account⟩, { min := 2 }, 0⟩,
   ⟨⟨2023, 1, 17⟩, ⟨"e1", .account⟩, { mean := 3 }, 0⟩]

/-- C2, witness at a concrete input: two sorted updates on one endpoint
accumulate to the initial balance plus the component sums. -/
theorem accumulate_endpoint_balances_final_balance_witness :
    ∃ res rec, accumulate_endpoint_balances witnessUpdates [] = .ok res ∧
      (res ⟨"e1", .account⟩).getLast? = some rec ∧
      rec.amount.min = (initialBalanceOf [] ⟨"e1", .account⟩).min
        + ((witnessUpdates.filter (fun u => u.endpoint = ⟨"e1", .account⟩)).map
            (fun u => u.delta.min)).sum ∧
      rec.amount.max = (initialBalanceOf [] ⟨"e1", .account⟩).max
        + ((witnessUpdates.filter (fun u => u.endpoint = ⟨"e1", .account⟩)).map
            (fun u => u.delta.max)).sum ∧
      rec.amount.mean = (initialBalanceOf [] ⟨"e1", .account⟩).mean
        + ((witnessUpdates.filter (fun u => u.endpoint = ⟨"e1", .account⟩)).map
            (fun u => u.delta.mean)).sum :=
  accumulate_endpoint_balances_final_balance witnessUpdates [] ⟨"e1", .account⟩
    (by decide)
    (by unfold witnessUpdates
        exact List.chain'_cons.mpr ⟨by decide, List.chain'_singleton _⟩)
    (by decide)

/-- For a stream of representable dates sorted chronologically, the group keys
prefixed with `date.min` form a chain. -/
theorem keys_chain_from_min (updates : List CashBalanceUpdate)
    (hmin : ∀ u ∈ updates, Date.minDate ≤ u.date)
    (hsorted : List.Chain' (fun u v => u.date ≤ v.date) updates) :
    List.Chain' (fun a c => a ≤ c)
      (Date.minDate :: (groupByDate updates).map Prod.fst) := by
  refine List.chain'_cons'.mpr ⟨?_, groupByDate_keys_sorted hsorted⟩
  intro k hk
  rcases hg : groupByDate updates with _ | ⟨⟨d, g⟩, rest⟩
  · rw [hg] at hk; simp at hk
  · rw [hg] at hk
    obtain ⟨v, vs, husv, hvd⟩ := groupByDate_head_key hg
    have hkd : k = d := by
      have hk2 := hk
      simp at hk2
      exact hk2.symm
    rw [hkd, ← hvd]
    exact hmin v (by rw [husv]; exact List.mem_cons_self v vs)

/-- C6: `accumulate_endpoint_balances` raises exactly when some update's date
is strictly earlier than a preceding update's date (failure of the pairwise
non-decreasing property); every chronologically non-decreasing stream of
representable dates completes without raising. -/
theorem accumulate_raises_iff_unsorted (updates : List CashBalanceUpdate)
    (initial_balances : List (CashEndpoint × FloatDistribution))
    (hmin : ∀ u ∈ updates, Date.minDate ≤ u.date) :
    ((∃ msg, accumulate_endpoint_balances updates initial_balances = .error msg) ↔
      ¬ List.Pairwise (fun u v => u.date ≤ v.date) updates) ∧
    (List.Pairwise (fun u v => u.date ≤ v.date) updates →
      ∃ res, accumulate_endpoint_balances updates initial_balances = .ok res) := by
  have hok_of_sorted : List.Pairwise (fun u v => u.date ≤ v.date) updates →
      ∃ res, accumulate_endpoint_balances updates initial_balances = .ok res := by
    intro hpw
    obtain ⟨res, hok, _⟩ := accumulateLoop_spec (groupByDate updates) Date.minDate
      (initialBalanceOf initial_balances) (fun _ => [])
      (keys_chain_from_min updates hmin hpw.chain')
    exact ⟨res, hok⟩
  refine ⟨⟨?_, ?_⟩, hok_of_sorted⟩
  · rintro ⟨msg, hmsg⟩ hpw
    obtain ⟨res, hok⟩ := hok_of_sorted hpw
    rw [hok] at hmsg
    exact Except.noConfusion hmsg
  · intro hpw
    have hnotchain : ¬ List.Chain' (fun a c => a ≤ c)
        (Date.minDate :: (groupByDate updates).map Prod.fst) := by
      intro hchain
      refine hpw (chain'_pairwise_of_mem_trans
        (fun a b c _ _ _ hab hbc => le_trans hab hbc) ?_)
      exact updates_sorted_of_keys_sorted (List.Chain'.tail hchain)
    exact accumulateLoop_error_of_unsorted (groupByDate updates) Date.minDate
      (initialBalanceOf initial_balances) (fun _ => []) hnotchain

/-- C6, witness at a concrete input: on the sorted two-update stream the
characterisation holds and accumulation completes without raising. -/
theorem accumulate_raises_iff_unsorted_witness :
    ((∃ msg, accumulate_endpoint_balances witnessUpdates [] = .error msg) ↔
      ¬ List.Pairwise (fun u v => u.date ≤ v.date) witnessUpdates) ∧
    (List.Pairwise (fun u v => u.date ≤ v.date) witnessUpdates →
      ∃ res, accumulate_endpoint_balances witnessUpdates [] = .ok res) :=
  accumulate_raises_iff_unsorted witnessUpdates [] (by decide)
